import Mathlib

/-!
Verification of the DepecheR sparse k-means engine (`src/Clusterer.cpp`).

Matrices are modelled as lists of rows over ℚ; the C++ `double` arithmetic
is modelled by exact rational arithmetic.  Every source of randomness
(`rand()` draws, bootstrap index draws, stability pair draws) is passed in
explicitly as a parameter, so every function of the model is a pure,
executable function of its inputs.
-/

/-- A matrix row (one observation or one cluster center), as in `RowMatrixXd`. -/
abbrev Row := List ℚ

/-- A row-major real matrix, matching the `RowMatrixXd` typedef of `Clusterer.h`. -/
abbrev RowMatrixXd := List Row

/-- Squared Euclidean distance between two rows.  The allocation code of
`allocate_clusters` compares Euclidean norms `((-X).rowwise()+mu.row(i)).rowwise().norm()`;
since the square root is strictly monotone on non-negative reals, comparing squared
distances selects exactly the same (first-)minimal candidate, which lets the model
stay inside ℚ. -/
def sqDist (a b : Row) : ℚ :=
  (List.zipWith (fun x y => (x - y) ^ 2) a b).sum

/-- `mu.row(i).isZero(0)` of Eigen: every entry of the row is exactly zero. -/
def rowIsZero (r : Row) : Bool :=
  r.all (fun x => x == 0)

/-- The `active_indices` vector built at the top of `allocate_clusters`:
all row indices of `mu`, or only the indices of rows that are not exactly
zero when `no_zero` is set. -/
def activeIndices (mu : RowMatrixXd) (no_zero : Bool) : List ℕ :=
  (List.range mu.length).filter
    (fun i => if no_zero then !(rowIsZero (mu.getD i [])) else true)

/-- Minimum of a list of rationals (`0` for the empty list, which the code
never queries). -/
def listMin : List ℚ → ℚ
  | [] => 0
  | x :: xs => xs.foldl min x

/-- Index of the first occurrence of the minimal entry, the semantics of
Eigen's `minCoeff(&min_index)` used in `allocate_clusters`. -/
def argminFirst (l : List ℚ) : ℕ :=
  l.indexOf (listMin l)

/-- `Clusterer::allocate_clusters`: each row of `X` is assigned the active
center index of (first-)minimal Euclidean distance; if fewer than two active
centers remain the result is the all-zero assignment vector. -/
def allocate_clusters (X mu : RowMatrixXd) (no_zero : Bool) : List ℕ :=
  if (activeIndices mu no_zero).length < 2 then
    List.replicate X.length 0
  else
    X.map (fun x =>
      (activeIndices mu no_zero).getD
        (argminFirst ((activeIndices mu no_zero).map
          (fun i => sqDist x (mu.getD i [])))) 0)

/-- Number of columns of a matrix, `X.cols()` of Eigen. -/
def numCols (X : RowMatrixXd) : ℕ :=
  (X.headD []).length

/-- Element-wise sum of two rows (`centers.row(i) += X.row(r)`). -/
def addRow (a b : Row) : Row :=
  List.zipWith (· + ·) a b

/-- The accumulated row sum `centers.row(i)` of `reevaluate_centers`: the sum
of all rows of `X` whose assigned label is `i`. -/
def clusterSum (X : RowMatrixXd) (inds : List ℕ) (cols i : ℕ) : Row :=
  ((X.zip inds).filter (fun p => p.2 == i)).foldl
    (fun acc p => addRow acc p.1) (List.replicate cols 0)

/-- The member count `nums(i)` of `reevaluate_centers`. -/
def clusterCount (inds : List ℕ) (i : ℕ) : ℕ :=
  (inds.filter (fun j => j == i)).length

/-- `Clusterer::reevaluate_centers`: with `S` the summed rows and `n` the member
count of label `i`, the code forms `mu_p = (S - reg/2)/n`, `mu_n = (S + reg/2)/n`
entry-wise and returns `mu_n.cwiseMin(mu_p.cwiseMax(0))`. -/
def reevaluate_centers (X : RowMatrixXd) (inds : List ℕ) (k : ℕ) (reg : ℚ) :
    RowMatrixXd :=
  (List.range k).map (fun i =>
    (clusterSum X inds (numCols X) i).map (fun s =>
      min ((s + reg / 2) / (clusterCount inds i : ℚ))
        (max ((s - reg / 2) / (clusterCount inds i : ℚ)) 0)))

/-- The `std::map<double, unsigned int>` built by `element_from_vector`:
the running cumulative sum over the strictly positive entries, with the
originating index, plus the final cumulative total.  Keys strictly increase,
so the insertion-ordered association list is exactly the key-ordered map. -/
def cumBuild : List ℚ → ℕ → ℚ → List (ℚ × ℕ) × ℚ
  | [], _, cum => ([], cum)
  | e :: es, i, cum =>
    if 0 < e then
      ((cum + e, i) :: (cumBuild es (i + 1) (cum + e)).1,
       (cumBuild es (i + 1) (cum + e)).2)
    else
      cumBuild es (i + 1) cum

/-- `Clusterer::element_from_vector`: weighted random index selection.  The
random draw `rand()/RAND_MAX ∈ [0,1]` is the explicit parameter `u`; the draw
point is `x = u * cum`.  If `x < cum` the code takes `map.upper_bound(x)`
(first key strictly above `x`); otherwise (`x = cum`) it reads `map[x]`, the
entry whose key is the total (the C++ `operator[]` default-constructs `0`
for an absent key). -/
def element_from_vector (elements : List ℚ) (u : ℚ) : ℕ :=
  let b := cumBuild elements 0 0
  let x := u * b.2
  if x < b.2 then
    match b.1.find? (fun pr => decide (x < pr.1)) with
    | some pr => pr.2
    | none => 0
  else
    match b.1.find? (fun pr => decide (pr.1 = x)) with
    | some pr => pr.2
    | none => 0

/-- Bounds-checked row read `M.row(i)`: Eigen indexing past the end of the
matrix is undefined behaviour, modelled as `none`. -/
def getRow (M : RowMatrixXd) (i : ℕ) : Option Row :=
  if h : i < M.length then some (M.get ⟨i, h⟩) else none

/-- Bounds-checked row write `M.row(i) = r`. -/
def setRow (M : RowMatrixXd) (i : ℕ) (r : Row) : Option RowMatrixXd :=
  if i < M.length then some (M.set i r) else none

/-- The `for(i = 2; i < k; i++)` tail of `initialize_mu`: repeatedly take the
running minimum of the squared distances to the newest center, draw a weighted
index from them and write the corresponding data row into center row `i`.
`us (i-1)` is the uniform draw used by the `i`-th weighted pick. -/
def init_loop (X : RowMatrixXd) (us : ℕ → ℚ) :
    ℕ → ℕ → RowMatrixXd → List ℚ → Row → Option RowMatrixXd
  | 0, _, mu, _, _ => some mu
  | fuel + 1, i, mu, dists, prev =>
    (getRow X (element_from_vector
        (List.zipWith min (X.map (fun x => sqDist x prev)) dists) (us (i - 1)))).bind
      (fun r =>
        (setRow mu i r).bind (fun mu2 =>
          init_loop X us fuel (i + 1) mu2
            (List.zipWith min (X.map (fun x => sqDist x prev)) dists) r))

/-- `Clusterer::initialize_mu` (k-means++-style seeding): center row 0 is a
uniformly random data row (`randi % X_rows`), center row 1 is drawn by
`element_from_vector` over the squared distances to center 0 — unconditionally,
with no guard on `k` — and rows `2..k-1` follow via `init_loop`.  Out-of-bounds
center-row writes surface as `none`. -/
def init_mu (X : RowMatrixXd) (k : ℕ) (randi : ℕ) (us : ℕ → ℚ) :
    Option RowMatrixXd :=
  (getRow X (randi % X.length)).bind (fun r0 =>
    (setRow (List.replicate k (List.replicate (numCols X) 0)) 0 r0).bind (fun mu1 =>
      (getRow X (element_from_vector (X.map (fun x => sqDist x r0)) (us 0))).bind
        (fun r1 =>
          (setRow mu1 1 r1).bind (fun mu2 =>
            init_loop X us (k - 2) 2 mu2 (X.map (fun x => sqDist x r0)) r1))))

/-- The regularization value passed to the center update at iteration `i` of
`find_centers`: `std::min(reg, reg*((float)i/(float)20))`. -/
def reg_at (reg : ℚ) (i : ℕ) : ℚ :=
  min reg (reg * ((i : ℚ) / 20))

/-- Result of the allocate/update loop of `find_centers`: final assignment,
final centers, the number of allocate/update iterations actually executed,
and whether the loop exited through the convergence `break`. -/
structure FCResult where
  mu_ind : List ℕ
  mu : RowMatrixXd
  iters : ℕ
  early : Bool
  deriving DecidableEq

/-- The `for(i = 0; i < count_limit; i++)` loop of `find_centers`: allocate,
`break` when the fresh assignment equals the previous one and `i > 20`,
otherwise update the centers with the annealed regularization `reg_at reg i`.
`fuel` is the number of loop iterations still allowed (`count_limit - i`). -/
def fc_loop (X : RowMatrixXd) (k : ℕ) (reg : ℚ) (no_zero : Bool) :
    ℕ → ℕ → List ℕ → List ℕ → RowMatrixXd → FCResult
  | 0, i, a, _, mu => ⟨a, mu, i, false⟩
  | fuel + 1, i, _, old, mu =>
    if allocate_clusters X mu no_zero = old ∧ 20 < i then
      ⟨allocate_clusters X mu no_zero, mu, i + 1, true⟩
    else
      fc_loop X k reg no_zero fuel (i + 1)
        (allocate_clusters X mu no_zero) (allocate_clusters X mu no_zero)
        (reevaluate_centers X (allocate_clusters X mu no_zero) k (reg_at reg i))

/-- The iterating phase of `find_centers`, started from seeded centers `mu0`
with `count_limit = 1000`, `mu_ind = Ones(rows)` and `mu_ind_old = Zero(rows)`. -/
def fc_run (X : RowMatrixXd) (k : ℕ) (reg : ℚ) (no_zero : Bool)
    (mu0 : RowMatrixXd) : FCResult :=
  fc_loop X k reg no_zero 1000 0
    (List.replicate X.length 1) (List.replicate X.length 0) mu0

/-- The state `(mu_ind_old, mu)` at the start of iteration `i` of the
`find_centers` loop, along the trajectory that never takes the `break`
(the actual loop coincides with it up to its exit point). -/
def fc_state (X : RowMatrixXd) (k : ℕ) (reg : ℚ) (no_zero : Bool)
    (mu0 : RowMatrixXd) : ℕ → List ℕ × RowMatrixXd
  | 0 => (List.replicate X.length 0, mu0)
  | i + 1 =>
    (allocate_clusters X (fc_state X k reg no_zero mu0 i).2 no_zero,
     reevaluate_centers X
       (allocate_clusters X (fc_state X k reg no_zero mu0 i).2 no_zero) k
       (reg_at reg i))

/-- The fresh assignment vector computed by iteration `i` of the
`find_centers` loop. -/
def fcAssign (X : RowMatrixXd) (k : ℕ) (reg : ℚ) (no_zero : Bool)
    (mu0 : RowMatrixXd) (i : ℕ) : List ℕ :=
  allocate_clusters X (fc_state X k reg no_zero mu0 i).2 no_zero

/-- `Clusterer::cluster_norm`: within-cluster sum of squared distances plus
`reg` times the sum of all center coordinates. -/
def cluster_norm (X : RowMatrixXd) (centers : RowMatrixXd) (ind : List ℕ)
    (reg : ℚ) : ℚ :=
  ((X.zip ind).map (fun p => sqDist p.1 (centers.getD p.2 []))).sum +
    (centers.map (fun r => (r.map (fun c => c * reg)).sum)).sum

/-- The `Return_values` struct of `Clusterer.h`. -/
structure Return_values where
  indexes : List ℕ
  indexes_no_zero : List ℕ
  centers : RowMatrixXd
  centers_no_zero : RowMatrixXd
  norm : ℚ
  norm_no_zero : ℚ
  deriving DecidableEq

/-- The packaging tail of `find_centers` (lines 254-260): both the plain and
the `_no_zero` result fields are filled from the one loop that actually ran. -/
def mkReturn (X : RowMatrixXd) (k : ℕ) (reg : ℚ) (no_zero : Bool)
    (mu0 : RowMatrixXd) : Return_values :=
  { indexes := (fc_run X k reg no_zero mu0).mu_ind
    indexes_no_zero := (fc_run X k reg no_zero mu0).mu_ind
    centers := (fc_run X k reg no_zero mu0).mu
    centers_no_zero := (fc_run X k reg no_zero mu0).mu
    norm := cluster_norm X (fc_run X k reg no_zero mu0).mu
      (fc_run X k reg no_zero mu0).mu_ind reg
    norm_no_zero := cluster_norm X (fc_run X k reg no_zero mu0).mu
      (fc_run X k reg no_zero mu0).mu_ind reg }

/-- `Clusterer::find_centers`: seed the centers, run the capped
allocate/update loop, and package the results.  `randi` and `us` are the
explicit random draws consumed by the seeding. -/
def find_centers (X : RowMatrixXd) (k : ℕ) (reg : ℚ) (no_zero : Bool)
    (randi : ℕ) (us : ℕ → ℚ) : Option Return_values :=
  (init_mu X k randi us).map (mkReturn X k reg no_zero)

/-- The per-label population fraction vector of `cluster_distance`
(each element contributes `1/size` to its label's entry). -/
def population (c : List ℕ) (k : ℕ) : List ℚ :=
  (List.range k).map (fun j => (clusterCount c j : ℚ) / (c.length : ℚ))

/-- The chance-agreement term `false1 + false2` of `cluster_distance`,
computed analytically from the two population vectors. -/
def falseSum (c1 c2 : List ℕ) (k : ℕ) : ℚ :=
  let n : ℚ := (c1.length : ℚ)
  let p1 := population c1 k
  let p2 := population c2 k
  ((p1.map (fun p => p * (p - 1 / n) * (n / (n - 1)))).sum *
      (p2.map (fun p => p * (p - 1 / n) * (n / (n - 1)))).sum) +
    ((p1.map (fun p => p * (1 - (p - 1 / n) * (n / (n - 1))))).sum *
      (p2.map (fun p => p * (1 - (p - 1 / n) * (n / (n - 1))))).sum)

/-- One Monte-Carlo draw of `cluster_distance` agreeing: the two labelings
either co-cluster the pair in both, or separate it in both. -/
def pairAgree (c1 c2 : List ℕ) (p : ℕ × ℕ) : Bool :=
  (c1.getD p.1 0 == c1.getD p.2 0 && c2.getD p.1 0 == c2.getD p.2 0) ||
    (c1.getD p.1 0 != c1.getD p.2 0 && c2.getD p.1 0 != c2.getD p.2 0)

/-- `Clusterer::cluster_distance`: the raw agreement count over the 10000
random pairs (passed explicitly as `pairs`, each drawn with distinct
in-range indices), divided by the constant `indice_num = 10000`, then
chance-corrected by `falseSum`. -/
def cluster_distance (c1 c2 : List ℕ) (k : ℕ) (pairs : List (ℕ × ℕ)) : ℚ :=
  (((pairs.countP (fun p => pairAgree c1 c2 p) : ℚ) / 10000) -
      falseSum c1 c2 k) / (1 - falseSum c1 c2 k)

/-- `Clusterer::bootstrap_data`: resampling with replacement; `inds` is the
explicit vector of raw random draws, reduced `mod X.rows()` by the code. -/
def bootstrap_data (X : RowMatrixXd) (inds : List ℕ) : RowMatrixXd :=
  inds.map (fun r => X.getD (r % X.length) [])

/-- `Clusterer::n_used_clusters`: how many of the `k` labels occur in `inds`. -/
def n_used_clusters (k : ℕ) (inds : List ℕ) : ℕ :=
  ((List.range k).map (fun j => if j ∈ inds then 1 else 0)).sum

/-- The random draws consumed by one `(i, j, l)` grid cell of
`optimize_param`: two bootstrap index vectors, the two seeding draws for the
two `find_centers` runs, and the pair draws for `cluster_distance`. -/
structure TrialRandom where
  b1 : List ℕ
  b2 : List ℕ
  randi1 : ℕ
  us1 : ℕ → ℚ
  randi2 : ℕ
  us2 : ℕ → ℚ
  pairs : List (ℕ × ℕ)

/-- The body of the innermost loop of `optimize_param`: two bootstrap
samples, two trimmed `find_centers` runs, re-allocation of the original data
against both result variants, one stability score and the used-cluster
counts, plus the four center matrices pushed onto `centers`. -/
def trial (X : RowMatrixXd) (kj : ℕ) (regl : ℚ) (tr : TrialRandom) :
    Option (ℚ × ℕ × List RowMatrixXd) :=
  (find_centers (bootstrap_data X tr.b1) kj regl true tr.randi1 tr.us1).bind
    (fun ret1 =>
      (find_centers (bootstrap_data X tr.b2) kj regl true tr.randi2 tr.us2).map
        (fun ret2 =>
          (cluster_distance (allocate_clusters X ret1.centers false)
              (allocate_clusters X ret2.centers false) kj tr.pairs,
            n_used_clusters kj ret1.indexes + n_used_clusters kj ret2.indexes,
            [ret1.centers, ret2.centers, ret1.centers_no_zero,
              ret2.centers_no_zero])))

/-- All `iterations × |k| × |reg|` trials of `optimize_param`, in loop order. -/
def trials (X : RowMatrixXd) (ks : List ℕ) (regs : List ℚ) (iterations : ℕ)
    (oracle : ℕ → ℕ → ℕ → TrialRandom) :
    Option (List (List (List (ℚ × ℕ × List RowMatrixXd)))) :=
  (List.range iterations).mapM (fun i =>
    (List.range ks.length).mapM (fun j =>
      (List.range regs.length).mapM (fun l =>
        trial X (ks.getD j 0) (regs.getD l 0) (oracle i j l))))

/-- Element-wise division of a matrix by a scalar (`distances/iterations`). -/
def matDiv (M : RowMatrixXd) (q : ℚ) : RowMatrixXd :=
  M.map (fun r => r.map (fun x => x / q))

/-- The `Optimization_values` struct of `Clusterer.h`. -/
structure Optimization_values where
  found_cluster : RowMatrixXd
  found_cluster_no_zero : RowMatrixXd
  distances : RowMatrixXd
  distances_no_zero : RowMatrixXd
  centers : List (List RowMatrixXd)
  deriving DecidableEq

/-- `Clusterer::optimize_param`: accumulate the per-cell stability scores and
used-cluster counts over all trials, then average; the `_no_zero` output
fields are filled from the same accumulated matrices as the plain ones
(lines 386-392 divide the very same `distances` and `found_cluster`). -/
def optimize_param (X : RowMatrixXd) (ks : List ℕ) (regs : List ℚ)
    (iterations : ℕ) (oracle : ℕ → ℕ → ℕ → TrialRandom) :
    Option Optimization_values :=
  (trials X ks regs iterations oracle).map (fun t =>
    { found_cluster := matDiv
        ((List.range ks.length).map (fun j => (List.range regs.length).map
          (fun l => ((t.map (fun ti =>
            (((ti.getD j []).getD l (0, 0, [])).2.1 : ℚ))).sum))))
        ((iterations : ℚ) * 2)
      found_cluster_no_zero := matDiv
        ((List.range ks.length).map (fun j => (List.range regs.length).map
          (fun l => ((t.map (fun ti =>
            (((ti.getD j []).getD l (0, 0, [])).2.1 : ℚ))).sum))))
        ((iterations : ℚ) * 2)
      distances := matDiv
        ((List.range ks.length).map (fun j => (List.range regs.length).map
          (fun l => ((t.map (fun ti =>
            ((ti.getD j []).getD l (0, 0, [])).1)).sum))))
        (iterations : ℚ)
      distances_no_zero := matDiv
        ((List.range ks.length).map (fun j => (List.range regs.length).map
          (fun l => ((t.map (fun ti =>
            ((ti.getD j []).getD l (0, 0, [])).1)).sum))))
        (iterations : ℚ)
      centers := (t.flatten.flatten).map (fun c => c.2.2) })

/-! ## Shared list lemmas -/

theorem getD_map_range {α : Type _} (f : ℕ → α) (d : α) {i k : ℕ} (h : i < k) :
    ((List.range k).map f).getD i d = f i := by
  rw [List.getD_eq_getElem?_getD, List.getElem?_map, List.getElem?_range h]
  rfl

theorem getD_map_lt {α β : Type _} (f : α → β) (s : List α) (d : α) (e : β)
    {j : ℕ} (h : j < s.length) : (s.map f).getD j e = f (s.getD j d) := by
  rw [List.getD_eq_getElem?_getD, List.getElem?_map, List.getElem?_eq_getElem h,
    List.getD_eq_getElem?_getD, List.getElem?_eq_getElem h]
  rfl

theorem foldl_addRow_length (L : List (Row × ℕ)) (acc : Row)
    (hL : ∀ p ∈ L, acc.length ≤ p.1.length) :
    (L.foldl (fun acc p => addRow acc p.1) acc).length = acc.length := by
  induction L generalizing acc with
  | nil => rfl
  | cons p ps ih =>
    have h1 : (addRow acc p.1).length = acc.length := by
      rw [addRow, List.length_zipWith]
      exact Nat.min_eq_left (hL p (by simp))
    rw [List.foldl_cons, ih]
    · exact h1
    · intro q hq
      rw [h1]
      exact hL q (by simp [hq])

theorem clusterSum_length (X : RowMatrixXd) (inds : List ℕ) (cols i : ℕ)
    (hX : ∀ r ∈ X, cols ≤ r.length) :
    (clusterSum X inds cols i).length = cols := by
  rw [clusterSum, foldl_addRow_length, List.length_replicate]
  intro p hp
  rw [List.length_replicate]
  exact hX p.1 (List.of_mem_zip (List.mem_of_mem_filter hp)).1

/-! ## C1: the regularized center update -/

/-- C1 counterexample: on `X = [[1],[3]]`, one cluster containing both rows and
`reg = 2`, the code returns `3/2 = (sum - reg/2)/count`, not the claimed
`min(m + reg/2, max(m - reg/2, 0)) = 1` with `m = (1+3)/2` the arithmetic mean:
the shrinkage in the source is divided by the member count along with the sum. -/
theorem C1_counterexample :
    ¬ (((reevaluate_centers [[1], [3]] [0, 0] 1 2).getD 0 []).getD 0 0 =
      min (((1 : ℚ) + 3) / 2 + 2 / 2) (max (((1 : ℚ) + 3) / 2 - 2 / 2) 0)) := by
  have h : ((reevaluate_centers [[1], [3]] [0, 0] 1 2).getD 0 []).getD 0 0 =
      3 / 2 := by
    norm_num [reevaluate_centers, clusterSum, clusterCount, numCols, addRow,
      List.range_succ, List.filter, List.zip, List.zipWith, List.replicate]
  rw [h]
  norm_num

/-- C1 (amended): for every label `i` with at least one member, the new center
entry is `min(m + reg/(2 n), max(m - reg/(2 n), 0))`, where `m` is the
arithmetic mean of the assigned rows and `n` the member count — the
soft-threshold half-width is `reg/(2 n)`, not `reg/2`. -/
theorem C1_center_update (X : RowMatrixXd) (inds : List ℕ) (k : ℕ) (reg : ℚ)
    {i j : ℕ} (hi : i < k) (hj : j < numCols X)
    (hrows : ∀ r ∈ X, r.length = numCols X)
    (hmem : 0 < clusterCount inds i) (hreg : 0 ≤ reg) :
    ((reevaluate_centers X inds k reg).getD i []).getD j 0 =
      min ((clusterSum X inds (numCols X) i).getD j 0 / (clusterCount inds i : ℚ)
            + reg / (2 * (clusterCount inds i : ℚ)))
        (max ((clusterSum X inds (numCols X) i).getD j 0 / (clusterCount inds i : ℚ)
            - reg / (2 * (clusterCount inds i : ℚ))) 0) := by
  have hlen : (clusterSum X inds (numCols X) i).length = numCols X :=
    clusterSum_length X inds (numCols X) i (fun r hr => (hrows r hr).ge)
  rw [reevaluate_centers, getD_map_range _ _ hi,
    getD_map_lt _ _ 0 _ (by rw [hlen]; exact hj), add_div, sub_div, div_div]

/-- C1 witness: the amended update formula evaluated on `X = [[1],[3]]`,
labels `[0,1]`, `k = 2`, `reg = 1`, at entry `(0,0)`. -/
theorem C1_center_update_witness :
    ((reevaluate_centers [[1], [3]] [0, 1] 2 1).getD 0 []).getD 0 0 =
      min ((clusterSum [[1], [3]] [0, 1] (numCols [[1], [3]]) 0).getD 0 0 /
            (clusterCount [0, 1] 0 : ℚ) + 1 / (2 * (clusterCount [0, 1] 0 : ℚ)))
        (max ((clusterSum [[1], [3]] [0, 1] (numCols [[1], [3]]) 0).getD 0 0 /
            (clusterCount [0, 1] 0 : ℚ) - 1 / (2 * (clusterCount [0, 1] 0 : ℚ)))
          0) :=
  C1_center_update [[1], [3]] [0, 1] 2 1 (by decide) (by decide) (by decide)
    (by decide) (by decide)

/-! ## C2: non-negativity of the updated centers -/

/-- C2 counterexample: with the negative data row `[-1]` assigned to the single
cluster and `reg = 0`, the updated center entry is `-1 < 0`: the update clamps
at zero only from the `mu_p` side, so negative data produces negative centers. -/
theorem C2_counterexample :
    ((reevaluate_centers [[-1]] [0] 1 0).getD 0 []).getD 0 0 < 0 := by
  have h : ((reevaluate_centers [[-1]] [0] 1 0).getD 0 []).getD 0 0 = -1 := by
    norm_num [reevaluate_centers, clusterSum, clusterCount, numCols, addRow,
      List.range_succ, List.filter, List.zip, List.zipWith, List.replicate]
  rw [h]
  norm_num

theorem addRow_nonneg : ∀ (a b : Row), (∀ v ∈ a, 0 ≤ v) → (∀ v ∈ b, 0 ≤ v) →
    ∀ v ∈ addRow a b, 0 ≤ v := by
  intro a
  induction a with
  | nil =>
    intro b _ _ v hv
    simp [addRow] at hv
  | cons x xs ih =>
    intro b ha hb v hv
    cases b with
    | nil => simp [addRow] at hv
    | cons y ys =>
      rw [addRow, List.zipWith_cons_cons] at hv
      rcases List.mem_cons.mp hv with h | h
      · subst h
        exact add_nonneg (ha x (by simp)) (hb y (by simp))
      · exact ih ys (fun v hv => ha v (by simp [hv]))
          (fun v hv => hb v (by simp [hv])) v h

theorem foldl_addRow_nonneg : ∀ (L : List (Row × ℕ)) (acc : Row),
    (∀ p ∈ L, ∀ v ∈ p.1, 0 ≤ v) → (∀ v ∈ acc, 0 ≤ v) →
    ∀ v ∈ L.foldl (fun acc p => addRow acc p.1) acc, 0 ≤ v := by
  intro L
  induction L with
  | nil =>
    intro acc _ hacc
    simpa using hacc
  | cons p ps ih =>
    intro acc hL hacc
    rw [List.foldl_cons]
    exact ih _ (fun q hq => hL q (by simp [hq]))
      (addRow_nonneg acc p.1 hacc (hL p (by simp)))

theorem clusterSum_nonneg (X : RowMatrixXd) (inds : List ℕ) (cols i : ℕ)
    (hX : ∀ r ∈ X, ∀ x ∈ r, 0 ≤ x) :
    ∀ v ∈ clusterSum X inds cols i, 0 ≤ v := by
  apply foldl_addRow_nonneg
  · intro p hp
    exact hX p.1 (List.of_mem_zip (List.mem_of_mem_filter hp)).1
  · intro v hv
    rw [List.eq_of_mem_replicate hv]

/-- C2 (amended): when every entry of `X` is non-negative (and `reg ≥ 0`,
every label populated), every entry of the updated center matrix is
non-negative; for data with negative entries the conclusion fails, as
`C2_counterexample` shows. -/
theorem C2_centers_nonneg (X : RowMatrixXd) (inds : List ℕ) (k : ℕ) (reg : ℚ)
    (hX : ∀ r ∈ X, ∀ x ∈ r, 0 ≤ x) (hreg : 0 ≤ reg)
    (hmem : ∀ i, i < k → 0 < clusterCount inds i) :
    ∀ row ∈ reevaluate_centers X inds k reg, ∀ x ∈ row, 0 ≤ x := by
  intro row hrow x hx
  rw [reevaluate_centers] at hrow
  obtain ⟨i, hik, rfl⟩ := List.mem_map.mp hrow
  obtain ⟨s, hs, rfl⟩ := List.mem_map.mp hx
  have hsn : 0 ≤ s := clusterSum_nonneg X inds (numCols X) i hX s hs
  have hn : (0 : ℚ) ≤ (clusterCount inds i : ℚ) := Nat.cast_nonneg _
  refine le_min (div_nonneg (by linarith) hn) (le_max_right _ _)

/-- C2 witness: the amended non-negativity statement on `X = [[1],[3]]`,
labels `[0,1]`, `k = 2`, `reg = 1`, read off at entry `(0,0)`. -/
theorem C2_centers_nonneg_witness :
    0 ≤ ((reevaluate_centers [[1], [3]] [0, 1] 2 1).getD 0 []).getD 0 0 := by
  have h := C2_centers_nonneg [[1], [3]] [0, 1] 2 1 (by decide) (by decide)
    (by decide)
  have hmat : reevaluate_centers [[1], [3]] [0, 1] 2 1 = [[1 / 2], [5 / 2]] := by
    norm_num [reevaluate_centers, clusterSum, clusterCount, numCols, addRow,
      List.range_succ, List.filter_cons, List.zip, List.zipWith, List.replicate]
  rw [hmat] at h ⊢
  exact h [1 / 2] (by norm_num) (1 / 2) (by norm_num)

/-! ## C3: the regularization annealing schedule -/

/-- C3: the regularization passed to the center update at iteration `i` of the
`find_centers` loop (the `reg_at reg i` consumed by `fc_loop`) equals
`min(reg, reg*i/20)`; in particular it is `0` at iteration 0 and equals the
full requested `reg` for every `i ≥ 20`. -/
theorem C3_reg_schedule (reg : ℚ) (hreg : 0 ≤ reg) :
    (∀ i : ℕ, reg_at reg i = min reg (reg * (i : ℚ) / 20)) ∧
    reg_at reg 0 = 0 ∧ (∀ i : ℕ, 20 ≤ i → reg_at reg i = reg) := by
  refine ⟨fun i => by rw [reg_at, mul_div_assoc], ?_, ?_⟩
  · have h0 : reg * (((0 : ℕ) : ℚ) / 20) = 0 := by norm_num
    rw [reg_at, h0]
    exact min_eq_right hreg
  · intro i hi
    rw [reg_at]
    refine min_eq_left ?_
    have h1 : (1 : ℚ) ≤ (i : ℚ) / 20 := by
      rw [le_div_iff₀ (by norm_num)]
      have : (20 : ℚ) ≤ (i : ℚ) := by exact_mod_cast hi
      linarith
    calc reg = reg * 1 := (mul_one reg).symm
    _ ≤ reg * ((i : ℚ) / 20) := mul_le_mul_of_nonneg_left h1 hreg

/-- C3 witness: the schedule at `reg = 1`, evaluated at iterations 0, 10, 25. -/
theorem C3_reg_schedule_witness :
    reg_at 1 0 = 0 ∧ reg_at 1 25 = 1 ∧
    reg_at 1 10 = min 1 (1 * ((10 : ℕ) : ℚ) / 20) :=
  ⟨(C3_reg_schedule 1 (by norm_num)).2.1,
   (C3_reg_schedule 1 (by norm_num)).2.2 25 (by norm_num),
   (C3_reg_schedule 1 (by norm_num)).1 10⟩

/-! ## C4: iteration cap and convergence exit of the find_centers loop -/

theorem fc_loop_iters_le (X : RowMatrixXd) (k : ℕ) (reg : ℚ) (nz : Bool) :
    ∀ (fuel i : ℕ) (a old : List ℕ) (mu : RowMatrixXd),
      (fc_loop X k reg nz fuel i a old mu).iters ≤ i + fuel := by
  intro fuel
  induction fuel with
  | zero =>
    intro i a old mu
    simp [fc_loop]
  | succ fuel ih =>
    intro i a old mu
    by_cases hc : allocate_clusters X mu nz = old ∧ 20 < i
    · rw [fc_loop, if_pos hc]
      show i + 1 ≤ i + (fuel + 1)
      omega
    · rw [fc_loop, if_neg hc]
      exact le_trans (ih (i + 1) _ _ _) (by omega)

theorem fc_loop_cap (X : RowMatrixXd) (k : ℕ) (reg : ℚ) (nz : Bool) :
    ∀ (fuel i : ℕ) (a old : List ℕ) (mu : RowMatrixXd),
      (fc_loop X k reg nz fuel i a old mu).early = false →
      (fc_loop X k reg nz fuel i a old mu).iters = i + fuel := by
  intro fuel
  induction fuel with
  | zero =>
    intro i a old mu _
    simp [fc_loop]
  | succ fuel ih =>
    intro i a old mu h
    by_cases hc : allocate_clusters X mu nz = old ∧ 20 < i
    · rw [fc_loop, if_pos hc] at h
      exact absurd h (by simp)
    · rw [fc_loop, if_neg hc] at h ⊢
      rw [ih _ _ _ _ h]
      omega

theorem fc_loop_early_iff (X : RowMatrixXd) (k : ℕ) (reg : ℚ) (nz : Bool)
    (mu0 : RowMatrixXd) :
    ∀ (fuel i : ℕ) (a : List ℕ),
      ((fc_loop X k reg nz fuel i a (fc_state X k reg nz mu0 i).1
          (fc_state X k reg nz mu0 i).2).early = true ↔
        ∃ j, i ≤ j ∧ j < i + fuel ∧ 20 < j ∧
          allocate_clusters X (fc_state X k reg nz mu0 j).2 nz =
            (fc_state X k reg nz mu0 j).1) := by
  intro fuel
  induction fuel with
  | zero =>
    intro i a
    rw [fc_loop]
    constructor
    · intro h
      exact absurd h (by simp)
    · rintro ⟨j, h1, h2, _, _⟩
      omega
  | succ fuel ih =>
    intro i a
    by_cases hc : allocate_clusters X (fc_state X k reg nz mu0 i).2 nz =
        (fc_state X k reg nz mu0 i).1 ∧ 20 < i
    · rw [fc_loop, if_pos hc]
      constructor
      · intro _
        exact ⟨i, le_refl i, by omega, hc.2, hc.1⟩
      · intro _
        rfl
    · rw [fc_loop, if_neg hc]
      have hstate2 : reevaluate_centers X
          (allocate_clusters X (fc_state X k reg nz mu0 i).2 nz) k (reg_at reg i) =
          (fc_state X k reg nz mu0 (i + 1)).2 := rfl
      have hstate1 : allocate_clusters X (fc_state X k reg nz mu0 i).2 nz =
          (fc_state X k reg nz mu0 (i + 1)).1 := rfl
      rw [hstate2, hstate1]
      refine (ih (i + 1) _).trans ?_
      constructor
      · rintro ⟨j, h1, h2, h3, h4⟩
        exact ⟨j, by omega, by omega, h3, h4⟩
      · rintro ⟨j, h1, h2, h3, h4⟩
        refine ⟨j, ?_, by omega, h3, h4⟩
        rcases Nat.eq_or_lt_of_le h1 with rfl | hlt
        · exact absurd ⟨h4, h3⟩ hc
        · omega

/-- C4: the `find_centers` loop executes at most 1000 allocate/update
iterations; when it never takes the convergence `break` it executes exactly
the 1000-iteration cap (still yielding a result); and it exits early exactly
when at some iteration index `j` strictly greater than 20 (and below the cap)
the freshly computed assignment vector equals the previous iteration's one. -/
theorem C4_loop_termination (X : RowMatrixXd) (k : ℕ) (reg : ℚ) (nz : Bool)
    (mu0 : RowMatrixXd) :
    (fc_run X k reg nz mu0).iters ≤ 1000 ∧
    ((fc_run X k reg nz mu0).early = false →
      (fc_run X k reg nz mu0).iters = 1000) ∧
    ((fc_run X k reg nz mu0).early = true ↔
      ∃ j, 20 < j ∧ j < 1000 ∧
        fcAssign X k reg nz mu0 j = fcAssign X k reg nz mu0 (j - 1)) := by
  refine ⟨?_, ?_, ?_⟩
  · simpa using fc_loop_iters_le X k reg nz 1000 0 _ _ _
  · intro h
    simpa using fc_loop_cap X k reg nz 1000 0 _ _ _ h
  · constructor
    · intro h
      obtain ⟨j, h1, h2, h3, h4⟩ :=
        (fc_loop_early_iff X k reg nz mu0 1000 0 (List.replicate X.length 1)).mp h
      obtain ⟨m, rfl⟩ : ∃ m, j = m + 1 := ⟨j - 1, by omega⟩
      exact ⟨m + 1, h3, by omega, h4⟩
    · rintro ⟨j, h3, h2, heq⟩
      refine (fc_loop_early_iff X k reg nz mu0 1000 0
        (List.replicate X.length 1)).mpr ?_
      obtain ⟨m, rfl⟩ : ∃ m, j = m + 1 := ⟨j - 1, by omega⟩
      exact ⟨m + 1, by omega, by omega, h3, heq⟩

/-! ## C5: the weighted sampler never returns a non-positive weight -/

theorem cumBuild_mem : ∀ (es : List ℚ) (i : ℕ) (c : ℚ),
    ∀ pr ∈ (cumBuild es i c).1,
      i ≤ pr.2 ∧ pr.2 - i < es.length ∧ 0 < es.getD (pr.2 - i) 0 := by
  intro es
  induction es with
  | nil =>
    intro i c pr hpr
    simp [cumBuild] at hpr
  | cons e es ih =>
    intro i c pr hpr
    rw [cumBuild] at hpr
    by_cases he : 0 < e
    · rw [if_pos he] at hpr
      rcases List.mem_cons.mp hpr with rfl | h
      · exact ⟨le_refl i, by simp, by simpa using he⟩
      · obtain ⟨h1, h2, h3⟩ := ih (i + 1) (c + e) pr h
        refine ⟨by omega, by simp only [List.length_cons]; omega, ?_⟩
        have hsub : pr.2 - i = (pr.2 - (i + 1)) + 1 := by omega
        rw [hsub]
        simpa using h3
    · rw [if_neg he] at hpr
      obtain ⟨h1, h2, h3⟩ := ih (i + 1) c pr hpr
      refine ⟨by omega, by simp only [List.length_cons]; omega, ?_⟩
      have hsub : pr.2 - i = (pr.2 - (i + 1)) + 1 := by omega
      rw [hsub]
      simpa using h3

theorem cumBuild_ne_nil : ∀ (es : List ℚ) (i : ℕ) (c : ℚ),
    (∃ e ∈ es, 0 < e) → (cumBuild es i c).1 ≠ [] := by
  intro es
  induction es with
  | nil =>
    rintro i c ⟨e, he, _⟩
    simp at he
  | cons e es ih =>
    rintro i c ⟨f, hf, hf0⟩
    rw [cumBuild]
    by_cases he : 0 < e
    · rw [if_pos he]
      simp
    · rw [if_neg he]
      refine ih (i + 1) c ⟨f, ?_, hf0⟩
      rcases List.mem_cons.mp hf with rfl | h
      · exact absurd hf0 he
      · exact h

theorem cumBuild_nil_total : ∀ (es : List ℚ) (i : ℕ) (c : ℚ),
    (cumBuild es i c).1 = [] → (cumBuild es i c).2 = c := by
  intro es
  induction es with
  | nil =>
    intro i c _
    rfl
  | cons e es ih =>
    intro i c h
    rw [cumBuild] at h ⊢
    by_cases he : 0 < e
    · rw [if_pos he] at h
      simp at h
    · rw [if_neg he] at h ⊢
      exact ih (i + 1) c h

theorem cumBuild_total_mem : ∀ (es : List ℚ) (i : ℕ) (c : ℚ),
    (cumBuild es i c).1 ≠ [] →
    ∃ pr ∈ (cumBuild es i c).1, pr.1 = (cumBuild es i c).2 := by
  intro es
  induction es with
  | nil =>
    intro i c h
    simp [cumBuild] at h
  | cons e es ih =>
    intro i c h
    rw [cumBuild]
    by_cases he : 0 < e
    · rw [if_pos he]
      by_cases hrest : (cumBuild es (i + 1) (c + e)).1 = []
      · refine ⟨(c + e, i), by simp, ?_⟩
        simp [cumBuild_nil_total es (i + 1) (c + e) hrest]
      · obtain ⟨pr, hm, hp⟩ := ih (i + 1) (c + e) hrest
        exact ⟨pr, by simp [hm], hp⟩
    · rw [cumBuild, if_neg he] at h
      rw [if_neg he]
      exact ih (i + 1) c h

theorem cumBuild_le : ∀ (es : List ℚ) (i : ℕ) (c : ℚ),
    c ≤ (cumBuild es i c).2 := by
  intro es
  induction es with
  | nil =>
    intro i c
    exact le_refl c
  | cons e es ih =>
    intro i c
    rw [cumBuild]
    by_cases he : 0 < e
    · rw [if_pos he]
      exact le_trans (by linarith) (ih (i + 1) (c + e))
    · rw [if_neg he]
      exact ih (i + 1) c

/-- C5: for every weight vector with at least one strictly positive entry and
every value `u ∈ [0,1]` of the uniform draw, `element_from_vector` returns an
index whose weight is strictly positive — an index with zero or negative
weight is never returned. -/
theorem C5_weighted_pick (elements : List ℚ) (u : ℚ)
    (h0 : 0 ≤ u) (h1 : u ≤ 1) (hpos : ∃ e ∈ elements, 0 < e) :
    0 < elements.getD (element_from_vector elements u) 0 := by
  have hne : (cumBuild elements 0 0).1 ≠ [] := cumBuild_ne_nil elements 0 0 hpos
  obtain ⟨pt, hpt, hkey⟩ := cumBuild_total_mem elements 0 0 hne
  have hcum0 : (0 : ℚ) ≤ (cumBuild elements 0 0).2 := cumBuild_le elements 0 0
  have hx : u * (cumBuild elements 0 0).2 ≤ (cumBuild elements 0 0).2 := by
    calc u * (cumBuild elements 0 0).2 ≤ 1 * (cumBuild elements 0 0).2 :=
          mul_le_mul_of_nonneg_right h1 hcum0
    _ = (cumBuild elements 0 0).2 := one_mul _
  simp only [element_from_vector]
  split
  · rename_i hlt
    cases hfind : (cumBuild elements 0 0).1.find?
        (fun pr => decide (u * (cumBuild elements 0 0).2 < pr.1)) with
    | none =>
      have hsome : ((cumBuild elements 0 0).1.find?
          (fun pr => decide (u * (cumBuild elements 0 0).2 < pr.1))).isSome := by
        rw [List.find?_isSome]
        exact ⟨pt, hpt, by rw [hkey]; exact decide_eq_true hlt⟩
      rw [hfind] at hsome
      simp at hsome
    | some pr =>
      have hmem := List.mem_of_find?_eq_some hfind
      have h3 := (cumBuild_mem elements 0 0 pr hmem).2.2
      simpa using h3
  · rename_i hge
    have hxeq : u * (cumBuild elements 0 0).2 = (cumBuild elements 0 0).2 :=
      le_antisymm hx (not_lt.mp hge)
    cases hfind : (cumBuild elements 0 0).1.find?
        (fun pr => decide (pr.1 = u * (cumBuild elements 0 0).2)) with
    | none =>
      have hsome : ((cumBuild elements 0 0).1.find?
          (fun pr => decide (pr.1 = u * (cumBuild elements 0 0).2))).isSome := by
        rw [List.find?_isSome]
        refine ⟨pt, hpt, ?_⟩
        rw [hxeq, hkey]
        exact decide_eq_true rfl
      rw [hfind] at hsome
      simp at hsome
    | some pr =>
      have hmem := List.mem_of_find?_eq_some hfind
      have h3 := (cumBuild_mem elements 0 0 pr hmem).2.2
      simpa using h3

/-- C5 witness: the pick from weights `[0, 5, 0, 5]` at draw `u = 1/2` has
strictly positive weight. -/
theorem C5_weighted_pick_witness :
    0 < ([0, 5, 0, 5] : List ℚ).getD (element_from_vector [0, 5, 0, 5] (1 / 2)) 0 :=
  C5_weighted_pick [0, 5, 0, 5] (1 / 2) (by norm_num) (by norm_num)
    ⟨5, by simp, by norm_num⟩

/-! ## C6: nearest-center allocation with first-minimum tie-break -/

theorem foldl_min_le_init : ∀ (xs : List ℚ) (a : ℚ), xs.foldl min a ≤ a := by
  intro xs
  induction xs with
  | nil =>
    intro a
    exact le_refl a
  | cons y ys ih =>
    intro a
    rw [List.foldl_cons]
    exact le_trans (ih (min a y)) (min_le_left a y)

theorem foldl_min_le_mem : ∀ (xs : List ℚ) (a b : ℚ), b ∈ xs →
    xs.foldl min a ≤ b := by
  intro xs
  induction xs with
  | nil =>
    intro a b hb
    simp at hb
  | cons y ys ih =>
    intro a b hb
    rw [List.foldl_cons]
    rcases List.mem_cons.mp hb with rfl | h
    · exact le_trans (foldl_min_le_init ys (min a b)) (min_le_right a b)
    · exact ih (min a y) b h

theorem listMin_le (l : List ℚ) (b : ℚ) (hb : b ∈ l) : listMin l ≤ b := by
  cases l with
  | nil => simp at hb
  | cons x xs =>
    rw [listMin]
    rcases List.mem_cons.mp hb with rfl | h
    · exact foldl_min_le_init xs b
    · exact foldl_min_le_mem xs x b h

theorem foldl_min_mem : ∀ (xs : List ℚ) (a : ℚ), xs.foldl min a ∈ a :: xs := by
  intro xs
  induction xs with
  | nil =>
    intro a
    simp
  | cons y ys ih =>
    intro a
    rw [List.foldl_cons]
    rcases List.mem_cons.mp (ih (min a y)) with h | h
    · rw [h]
      rcases min_choice a y with h2 | h2 <;> simp [h2]
    · simp [h]

theorem listMin_mem (l : List ℚ) (h : l ≠ []) : listMin l ∈ l := by
  cases l with
  | nil => exact absurd rfl h
  | cons x xs => exact foldl_min_mem xs x

theorem ne_of_lt_indexOf {α : Type _} [DecidableEq α] :
    ∀ (l : List α) (a : α) (m : ℕ) (h : m < l.length),
      m < l.indexOf a → l.get ⟨m, h⟩ ≠ a := by
  intro l
  induction l with
  | nil =>
    intro a m h
    simp at h
  | cons x xs ih =>
    intro a m h hm
    by_cases hxa : x = a
    · rw [List.indexOf_cons_eq xs hxa] at hm
      omega
    · rw [List.indexOf_cons_ne xs hxa] at hm
      cases m with
      | zero => simpa using hxa
      | succ m' =>
        have := ih a m' (by simpa using h) (by omega)
        simpa using this

theorem argminFirst_spec (A : List ℕ) (f : ℕ → ℚ) (hne : A ≠ [])
    (hpw : A.Pairwise (· < ·)) :
    A.getD (argminFirst (A.map f)) 0 ∈ A ∧
    (∀ c ∈ A, f (A.getD (argminFirst (A.map f)) 0) ≤ f c) ∧
    (∀ c ∈ A, c < A.getD (argminFirst (A.map f)) 0 →
      f (A.getD (argminFirst (A.map f)) 0) < f c) := by
  simp only [argminFirst]
  have hdlen : (A.map f).length = A.length := List.length_map _ _
  have hAne : 0 < A.length := List.length_pos.mpr hne
  have hdne : A.map f ≠ [] := by
    intro h
    rw [h] at hdlen
    simp at hdlen
    omega
  have hminmem : listMin (A.map f) ∈ A.map f := listMin_mem _ hdne
  have hidx : (A.map f).indexOf (listMin (A.map f)) < (A.map f).length :=
    List.indexOf_lt_length.mpr hminmem
  have hidxA : (A.map f).indexOf (listMin (A.map f)) < A.length := by omega
  have hgetD : A.getD ((A.map f).indexOf (listMin (A.map f))) 0 =
      A.get ⟨(A.map f).indexOf (listMin (A.map f)), hidxA⟩ := by
    rw [List.getD_eq_getElem?_getD, List.getElem?_eq_getElem hidxA]
    rfl
  have hmap : ∀ (m : ℕ) (hm : m < A.length),
      (A.map f).get ⟨m, by omega⟩ = f (A.get ⟨m, hm⟩) := by
    intro m hm
    simp
  have hfidx : f (A.get ⟨(A.map f).indexOf (listMin (A.map f)), hidxA⟩) =
      listMin (A.map f) :=
    (hmap _ hidxA).symm.trans (List.indexOf_get hidx)
  rw [hgetD]
  refine ⟨List.get_mem A _ _, ?_, ?_⟩
  · intro c hc
    obtain ⟨⟨m, hm⟩, rfl⟩ := List.mem_iff_get.mp hc
    rw [hfidx, ← hmap m hm]
    exact listMin_le _ _ (List.get_mem _ _ _)
  · intro c hc hlt
    obtain ⟨⟨m, hm⟩, rfl⟩ := List.mem_iff_get.mp hc
    have hmidx : m < (A.map f).indexOf (listMin (A.map f)) := by
      rcases lt_trichotomy m ((A.map f).indexOf (listMin (A.map f))) with h | h | h
      · exact h
      · exfalso
        subst h
        exact lt_irrefl _ hlt
      · exfalso
        have := List.pairwise_iff_get.mp hpw
          ⟨(A.map f).indexOf (listMin (A.map f)), hidxA⟩ ⟨m, hm⟩ h
        exact lt_asymm hlt this
    have hne2 : (A.map f).get ⟨m, by omega⟩ ≠ listMin (A.map f) :=
      ne_of_lt_indexOf (A.map f) (listMin (A.map f)) m (by omega) hmidx
    have hle : listMin (A.map f) ≤ (A.map f).get ⟨m, by omega⟩ :=
      listMin_le _ _ (List.get_mem _ _ _)
    have hstrict : listMin (A.map f) < (A.map f).get ⟨m, by omega⟩ :=
      lt_of_le_of_ne hle (Ne.symm hne2)
    rw [hfidx, ← hmap m hm]
    exact hstrict

/-- C6: with at least two candidate centers, each point receives a candidate
index of minimal (squared-)Euclidean distance, and every lower-indexed
candidate is at strictly larger distance — ties resolve to the lowest-indexed
candidate. -/
theorem C6_nearest_center (X mu : RowMatrixXd) (no_zero : Bool) (p : ℕ)
    (hactive : 2 ≤ (activeIndices mu no_zero).length) (hp : p < X.length) :
    (allocate_clusters X mu no_zero).getD p 0 ∈ activeIndices mu no_zero ∧
    (∀ c ∈ activeIndices mu no_zero,
      sqDist (X.getD p [])
          (mu.getD ((allocate_clusters X mu no_zero).getD p 0) []) ≤
        sqDist (X.getD p []) (mu.getD c [])) ∧
    (∀ c ∈ activeIndices mu no_zero,
      c < (allocate_clusters X mu no_zero).getD p 0 →
      sqDist (X.getD p [])
          (mu.getD ((allocate_clusters X mu no_zero).getD p 0) []) <
        sqDist (X.getD p []) (mu.getD c [])) := by
  have hnotlt : ¬ (activeIndices mu no_zero).length < 2 := by omega
  have halloc : (allocate_clusters X mu no_zero).getD p 0 =
      (activeIndices mu no_zero).getD
        (argminFirst ((activeIndices mu no_zero).map
          (fun i => sqDist (X.getD p []) (mu.getD i [])))) 0 := by
    rw [allocate_clusters, if_neg hnotlt, getD_map_lt _ _ [] _ hp]
  have hne : activeIndices mu no_zero ≠ [] := by
    intro h
    rw [h] at hactive
    simp at hactive
  have hpw : (activeIndices mu no_zero).Pairwise (· < ·) :=
    (List.pairwise_lt_range mu.length).filter _
  have hspec := argminFirst_spec (activeIndices mu no_zero)
      (fun i => sqDist (X.getD p []) (mu.getD i [])) hne hpw
  rw [halloc]
  exact hspec

/-- C6 witness: one point `[1]` equidistant from the centers `[0]` and `[2]`;
the allocation picks the lower index 0. -/
theorem C6_nearest_center_witness :
    (allocate_clusters [[1]] [[0], [2]] false).getD 0 0 ∈
      activeIndices [[0], [2]] false ∧
    sqDist (([[1]] : RowMatrixXd).getD 0 [])
        (([[0], [2]] : RowMatrixXd).getD
          ((allocate_clusters [[1]] [[0], [2]] false).getD 0 0) []) ≤
      sqDist (([[1]] : RowMatrixXd).getD 0 [])
        (([[0], [2]] : RowMatrixXd).getD 1 []) := by
  have h := C6_nearest_center [[1]] [[0], [2]] false 0 (by decide) (by decide)
  exact ⟨h.1, h.2.1 1 (by decide)⟩

/-! ## C7: degenerate fallback of the allocator -/

theorem countP_range_getD (l : List Row) :
    (List.range l.length).countP (fun i => !(rowIsZero (l.getD i []))) =
      l.countP (fun r => !(rowIsZero r)) := by
  induction l with
  | nil => rfl
  | cons x xs ih =>
    have hcomp : (List.range xs.length).countP
        ((fun i => !(rowIsZero ((x :: xs).getD i []))) ∘ Nat.succ) =
        (List.range xs.length).countP (fun i => !(rowIsZero (xs.getD i []))) := by
      apply List.countP_congr
      intro a _
      rfl
    rw [List.length_cons, List.range_succ_eq_map, List.countP_cons,
      List.countP_map, hcomp, ih, List.countP_cons]
    rfl

/-- C7: whenever fewer than two candidate centers remain — in particular in
trimmed mode when at most one row of `mu` is non-zero — `allocate_clusters`
returns the all-zero assignment vector of length `N` as a defined result. -/
theorem C7_degenerate_fallback (X mu : RowMatrixXd) (no_zero : Bool) :
    ((activeIndices mu no_zero).length < 2 →
      allocate_clusters X mu no_zero = List.replicate X.length 0) ∧
    ((mu.filter (fun r => !(rowIsZero r))).length ≤ 1 →
      allocate_clusters X mu true = List.replicate X.length 0) := by
  constructor
  · intro h
    rw [allocate_clusters, if_pos h]
  · intro h
    have he : (activeIndices mu true).length =
        (mu.filter (fun r => !(rowIsZero r))).length := by
      rw [activeIndices]
      rw [show (fun i => if (true : Bool) then !(rowIsZero (mu.getD i []))
          else true) = (fun i => !(rowIsZero (mu.getD i []))) from rfl]
      rw [← List.countP_eq_length_filter, countP_range_getD mu,
        List.countP_eq_length_filter]
    rw [allocate_clusters, if_pos (by omega)]

/-- C7 witness: a single all-candidates center (part 1) and a two-row center
matrix whose rows are both zero in trimmed mode (part 2) both give the trivial
all-zero assignment. -/
theorem C7_degenerate_fallback_witness :
    allocate_clusters [[5]] [[1]] false = List.replicate 1 0 ∧
    allocate_clusters [[5]] [[0], [0]] true = List.replicate 1 0 :=
  ⟨(C7_degenerate_fallback [[5]] [[1]] false).1 (by decide),
   (C7_degenerate_fallback [[5]] [[0], [0]] true).2 (by decide)⟩

/-! ## C8: the stability metric on identical labelings -/

theorem pairAgree_self (c : List ℕ) (p : ℕ × ℕ) : pairAgree c c p = true := by
  rw [pairAgree]
  rw [show (c.getD p.1 0 != c.getD p.2 0) =
    !(c.getD p.1 0 == c.getD p.2 0) from rfl]
  cases c.getD p.1 0 == c.getD p.2 0 <;> rfl

/-- C8: on two identical label vectors (length ≥ 2, labels in `[0,k)`), every
valid random pair agrees, so the raw agreement count equals the number of
draws (rate exactly 1), and when the chance-correction denominator is non-zero
the returned score is exactly 1, the top of its range. -/
theorem C8_stability_identical (c : List ℕ) (k : ℕ) (pairs : List (ℕ × ℕ))
    (hlen : 2 ≤ c.length) (hk : ∀ e ∈ c, e < k)
    (hpairs : pairs.length = 10000)
    (hvalid : ∀ p ∈ pairs, p.1 ≠ p.2 ∧ p.1 < c.length ∧ p.2 < c.length)
    (hden : 1 - falseSum c c k ≠ 0) :
    pairs.countP (fun p => pairAgree c c p) = pairs.length ∧
    cluster_distance c c k pairs = 1 := by
  have hcount : pairs.countP (fun p => pairAgree c c p) = pairs.length := by
    apply List.countP_eq_length.mpr
    intro p _
    exact pairAgree_self c p
  refine ⟨hcount, ?_⟩
  rw [cluster_distance, hcount, hpairs]
  rw [show ((10000 : ℕ) : ℚ) / 10000 = 1 from by norm_num]
  exact div_self hden

/-- C8 witness: identical labelings `[0,0,1]` over `k = 2` with 10000 copies
of the valid pair `(0,1)` produce agreement rate 1 and score 1. -/
theorem C8_stability_identical_witness :
    (List.replicate 10000 ((0 : ℕ), (1 : ℕ))).countP
        (fun p => pairAgree [0, 0, 1] [0, 0, 1] p) =
      (List.replicate 10000 ((0 : ℕ), (1 : ℕ))).length ∧
    cluster_distance [0, 0, 1] [0, 0, 1] 2 (List.replicate 10000 (0, 1)) = 1 :=
  C8_stability_identical [0, 0, 1] 2 (List.replicate 10000 (0, 1))
    (by norm_num) (by decide) (List.length_replicate _ _)
    (fun p hp => by
      have hp1 := List.eq_of_mem_replicate hp
      subst hp1
      exact ⟨by decide, by decide, by decide⟩)
    (by norm_num [falseSum, population, clusterCount, List.range_succ,
      List.filter_cons])

/-! ## C9: trimmed and non-trimmed result halves coincide -/

/-- C9: every `Return_values` that `find_centers` produces has
`indexes_no_zero = indexes`, `centers_no_zero = centers` and
`norm_no_zero = norm`, and every `Optimization_values` that `optimize_param`
produces has `distances_no_zero = distances` and
`found_cluster_no_zero = found_cluster`: both halves are filled from the one
computation that actually ran. -/
theorem C9_trimmed_equals_untrimmed :
    (∀ (X : RowMatrixXd) (k : ℕ) (reg : ℚ) (no_zero : Bool) (randi : ℕ)
      (us : ℕ → ℚ),
      (find_centers X k reg no_zero randi us).elim True (fun rv =>
        rv.indexes_no_zero = rv.indexes ∧ rv.centers_no_zero = rv.centers ∧
        rv.norm_no_zero = rv.norm)) ∧
    (∀ (X : RowMatrixXd) (ks : List ℕ) (regs : List ℚ) (iterations : ℕ)
      (oracle : ℕ → ℕ → ℕ → TrialRandom),
      (optimize_param X ks regs iterations oracle).elim True (fun ov =>
        ov.distances_no_zero = ov.distances ∧
        ov.found_cluster_no_zero = ov.found_cluster)) := by
  constructor
  · intro X k reg no_zero randi us
    rw [find_centers]
    cases init_mu X k randi us with
    | none => trivial
    | some mu0 => exact ⟨rfl, rfl, rfl⟩
  · intro X ks regs iterations oracle
    rw [optimize_param]
    cases trials X ks regs iterations oracle with
    | none => trivial
    | some t => exact ⟨rfl, rfl⟩

/-! ## C10: seeding writes center row 1 unconditionally -/

theorem element_from_vector_lt (elements : List ℚ) (u : ℚ)
    (hne : elements ≠ []) : element_from_vector elements u < elements.length := by
  have hlen : 0 < elements.length := List.length_pos.mpr hne
  simp only [element_from_vector]
  split
  · cases hfind : (cumBuild elements 0 0).1.find?
        (fun pr => decide (u * (cumBuild elements 0 0).2 < pr.1)) with
    | none => exact hlen
    | some pr =>
      have hmem := List.mem_of_find?_eq_some hfind
      have h := (cumBuild_mem elements 0 0 pr hmem).2.1
      simpa using h
  · cases hfind : (cumBuild elements 0 0).1.find?
        (fun pr => decide (pr.1 = u * (cumBuild elements 0 0).2)) with
    | none => exact hlen
    | some pr =>
      have hmem := List.mem_of_find?_eq_some hfind
      have h := (cumBuild_mem elements 0 0 pr hmem).2.1
      simpa using h

theorem init_loop_isSome (X : RowMatrixXd) (us : ℕ → ℚ) :
    ∀ (fuel i : ℕ) (mu : RowMatrixXd) (dists : List ℚ) (prev : Row),
      X ≠ [] → dists.length = X.length → i + fuel ≤ mu.length →
      (init_loop X us fuel i mu dists prev).isSome = true := by
  intro fuel
  induction fuel with
  | zero =>
    intro i mu dists prev _ _ _
    rfl
  | succ fuel ih =>
    intro i mu dists prev hX hd hlen
    rw [init_loop]
    have hzlen : (List.zipWith min (X.map (fun x => sqDist x prev)) dists).length
        = X.length := by
      rw [List.length_zipWith, List.length_map, hd, Nat.min_self]
    have hXlen : 0 < X.length := List.length_pos.mpr hX
    have hzne : List.zipWith min (X.map (fun x => sqDist x prev)) dists ≠ [] := by
      intro h
      rw [h] at hzlen
      simp at hzlen
      omega
    have he := element_from_vector_lt _ (us (i - 1)) hzne
    rw [hzlen] at he
    rw [getRow, dif_pos he, Option.some_bind]
    rw [setRow, if_pos (by omega : i < mu.length), Option.some_bind]
    apply ih
    · exact hX
    · exact hzlen
    · rw [List.length_set]
      omega

theorem bind_setRow_one_none (M : RowMatrixXd) (hM : M.length = 1)
    (o : Option Row) (g : Row → RowMatrixXd → Option RowMatrixXd) :
    o.bind (fun r1 => (setRow M 1 r1).bind (g r1)) = none := by
  cases o with
  | none => rfl
  | some r =>
    rw [Option.some_bind, setRow, if_neg (by omega)]
    rfl

theorem init_mu_one (X : RowMatrixXd) (randi : ℕ) (us : ℕ → ℚ) :
    init_mu X 1 randi us = none := by
  rw [init_mu]
  by_cases hX : X.length = 0
  · rw [getRow, dif_neg (by omega)]
    rfl
  · rw [getRow, dif_pos (Nat.mod_lt randi (by omega))]
    rw [Option.some_bind, setRow, if_pos (by simp)]
    rw [Option.some_bind]
    apply bind_setRow_one_none
    simp

theorem init_mu_isSome (X : RowMatrixXd) (k randi : ℕ) (us : ℕ → ℚ)
    (hk : 2 ≤ k) (hX : X ≠ []) : (init_mu X k randi us).isSome = true := by
  have hlen : 0 < X.length := List.length_pos.mpr hX
  obtain ⟨r0, hr0⟩ : ∃ r, getRow X (randi % X.length) = some r := by
    rw [getRow, dif_pos (Nat.mod_lt randi hlen)]
    exact ⟨_, rfl⟩
  rw [init_mu, hr0, Option.some_bind]
  have hmu1 : setRow (List.replicate k (List.replicate (numCols X) 0)) 0 r0 =
      some ((List.replicate k (List.replicate (numCols X) 0)).set 0 r0) := by
    rw [setRow, if_pos (by simp; omega)]
  rw [hmu1, Option.some_bind]
  have hdlen : (X.map (fun x => sqDist x r0)).length = X.length :=
    List.length_map _ _
  have hdne : X.map (fun x => sqDist x r0) ≠ [] := by
    intro h
    rw [h] at hdlen
    simp at hdlen
    omega
  have he1 := element_from_vector_lt (X.map (fun x => sqDist x r0)) (us 0) hdne
  rw [hdlen] at he1
  obtain ⟨r1, hr1⟩ : ∃ r, getRow X
      (element_from_vector (X.map (fun x => sqDist x r0)) (us 0)) = some r := by
    rw [getRow, dif_pos he1]
    exact ⟨_, rfl⟩
  rw [hr1, Option.some_bind]
  have hmu2 : setRow ((List.replicate k (List.replicate (numCols X) 0)).set 0 r0)
      1 r1 = some (((List.replicate k
        (List.replicate (numCols X) 0)).set 0 r0).set 1 r1) := by
    rw [setRow, if_pos (by simp; omega)]
  rw [hmu2, Option.some_bind]
  apply init_loop_isSome X us (k - 2) 2 _ _ _ hX hdlen
  simp
  omega

/-- C10: the seeding `initialize_mu` writes center row 1 unconditionally, so
for `k = 1` it indexes past the end of the 1-row center matrix (modelled as
`none`), making `find_centers` undefined for `k = 1`; for `k ≥ 2` (and a
non-empty data matrix) every center-row access of the seeding is in bounds. -/
theorem C10_seeding_bounds :
    (∀ (X : RowMatrixXd) (randi : ℕ) (us : ℕ → ℚ),
      init_mu X 1 randi us = none) ∧
    (∀ (X : RowMatrixXd) (k randi : ℕ) (us : ℕ → ℚ), 2 ≤ k → X ≠ [] →
      (init_mu X k randi us).isSome = true) ∧
    (∀ (X : RowMatrixXd) (reg : ℚ) (no_zero : Bool) (randi : ℕ) (us : ℕ → ℚ),
      find_centers X 1 reg no_zero randi us = none) := by
  refine ⟨init_mu_one, init_mu_isSome, ?_⟩
  intro X reg no_zero randi us
  rw [find_centers, init_mu_one X randi us]
  rfl

/-- C10 witness: on the data matrix `[[0],[1]]`, seeding with `k = 1` fails
out of bounds while `k = 2` succeeds, and `find_centers` with `k = 1` yields
no result. -/
theorem C10_seeding_bounds_witness :
    init_mu [[0], [1]] 1 0 (fun _ => 0) = none ∧
    (init_mu [[0], [1]] 2 0 (fun _ => 0)).isSome = true ∧
    find_centers [[0], [1]] 1 0 false 0 (fun _ => 0) = none :=
  ⟨C10_seeding_bounds.1 [[0], [1]] 0 (fun _ => 0),
   C10_seeding_bounds.2.1 [[0], [1]] 2 0 (fun _ => 0) (by norm_num) (by simp),
   C10_seeding_bounds.2.2 [[0], [1]] 0 false 0 (fun _ => 0)⟩
